import Mathlib

/-!
Verification development for the storage-engine core of an instructional
relational database (buffer pool manager, LRU-K replacer, extendible hash
table, B+ tree index).  Each component is shallowly embedded: the C++
state is a Lean structure, each method a Lean function on it.  Machine
integers that can go negative in the source (the `int size_` of the
intrusive list) are modelled as `Int`; unsigned counters as `Nat`;
methods that throw are modelled as `Option`-returning functions where
`none` is the thrown exception.
-/

namespace Spec2Proof

/-! ## LRU-K replacer (`src/buffer/lru_k_replacer.cpp`, `lru_k_replacer.h`)

A `Node` carries the per-frame record.  In the source the nodes are
shared (`shared_ptr`) between the id map `m_` and the two intrusive
lists `history_` and `cache_`; here the node data lives in the
association list `m` and the two lists store frame ids, so a mutation
through the map is seen by the lists and vice versa, as in the source.
The fields `in_cache_` and `evictable_` of a freshly built node and the
`int size_` of a fresh `List` have no initializer in the source; they
are modelled as zero-initialized (`false` / `0`), the value the
program's own test suite relies on. -/

structure Node where
  frameId : Nat
  frequence : Nat
  inCache : Bool
  evictable : Bool
deriving DecidableEq

/-- An intrusive doubly linked list of the source, projected to the
sequence of frame ids from `head_` to `tail_`, plus its `int size_`
counter (which the source can drive negative). -/
structure RList where
  elems : List Nat
  size : Int
deriving DecidableEq

def mGet : List (Nat × Node) → Nat → Option Node
  | [], _ => none
  | (f, n) :: rest, fid => if f = fid then some n else mGet rest fid

def mSet : List (Nat × Node) → Nat → Node → List (Nat × Node)
  | [], fid, nd => [(fid, nd)]
  | (f, n) :: rest, fid, nd => if f = fid then (f, nd) :: rest else (f, n) :: mSet rest fid nd

def mErase : List (Nat × Node) → Nat → List (Nat × Node)
  | [], _ => []
  | (f, n) :: rest, fid => if f = fid then rest else (f, n) :: mErase rest fid

/-- `List::push_front`: the node becomes `head_->next_`. -/
def pushFront (l : RList) (fid : Nat) : RList :=
  { elems := fid :: l.elems, size := l.size + 1 }

/-- `List::remove(node)`: unlink the node and decrement `size_`. -/
def listRemove (l : RList) (fid : Nat) : RList :=
  { elems := l.elems.erase fid, size := l.size - 1 }

/-- `List::removeLastEvictableNode`: if `size_ == 0` give up, otherwise
scan from `tail_` toward `head_` for the first evictable node, unlink it
(which already decrements `size_`) and decrement `size_` once more, as
the source does. -/
def removeLastEvictable (l : RList) (m : List (Nat × Node)) : Option Nat × RList :=
  if l.size = 0 then (none, l)
  else
    match l.elems.reverse.find? (fun fid => ((mGet m fid).map Node.evictable).getD false) with
    | none => (none, l)
    | some fid => (some fid, { elems := l.elems.erase fid, size := l.size - 2 })

structure LRUKReplacer where
  k : Nat
  currSize : Nat
  m : List (Nat × Node)
  history : RList
  cache : RList
deriving DecidableEq

/-- `LRUKReplacer(num_frames, k)`; `replacer_size_ = num_frames` is never
written again, so it is passed as the explicit bound `N` to
`recordAccess` instead of being stored. -/
def LRUKReplacer.new (k : Nat) : LRUKReplacer :=
  { k := k, currSize := 0, m := [], history := ⟨[], 0⟩, cache := ⟨[], 0⟩ }

/-- `LRUKReplacer::Evict`: try `history_` from the tail, then `cache_`;
on success decrement `curr_size_` and erase the map entry. -/
def evict (r : LRUKReplacer) : Option Nat × LRUKReplacer :=
  match removeLastEvictable r.history r.m with
  | (some fid, h') =>
      (some fid, { r with history := h', currSize := r.currSize - 1, m := mErase r.m fid })
  | (none, _) =>
      match removeLastEvictable r.cache r.m with
      | (some fid, c') =>
          (some fid, { r with cache := c', currSize := r.currSize - 1, m := mErase r.m fid })
      | (none, _) => (none, r)

/-- The body of `LRUKReplacer::RecordAccess` after its bound check: find
or create the node (new nodes go to the front of `history_`), increment
`frequence_`, then move a cached node to the front of `cache_`, or
promote a history node whose count reached `k_`. -/
def recordAccessGo (r : LRUKReplacer) (fid : Nat) : LRUKReplacer :=
  let found := mGet r.m fid
  let node0 : Node := found.getD ⟨fid, 0, false, false⟩
  let r1 : LRUKReplacer :=
    match found with
    | none =>
        { r with m := mSet r.m fid ⟨fid, 0, false, false⟩, history := pushFront r.history fid }
    | some _ => r
  let node1 : Node := { node0 with frequence := node0.frequence + 1 }
  if node1.inCache then
    { r1 with m := mSet r1.m fid node1, cache := pushFront (listRemove r1.cache fid) fid }
  else if r.k ≤ node1.frequence then
    { r1 with m := mSet r1.m fid { node1 with inCache := true },
              history := listRemove r1.history fid,
              cache := pushFront r1.cache fid }
  else
    { r1 with m := mSet r1.m fid node1 }

/-- `LRUKReplacer::RecordAccess`: throws (`none`) iff
`frame_id > replacer_size_`, where `N` is the `num_frames` of the
constructor. -/
def recordAccess (N : Nat) (r : LRUKReplacer) (fid : Nat) : Option LRUKReplacer :=
  if fid > N then none else some (recordAccessGo r fid)

/-- `LRUKReplacer::SetEvictable`: throws (`none`) on an unknown frame id;
a no-op when the flag already has the requested value; otherwise flips
the flag and adjusts `curr_size_`. -/
def setEvictable (r : LRUKReplacer) (fid : Nat) (flag : Bool) : Option LRUKReplacer :=
  match mGet r.m fid with
  | none => none
  | some nd =>
      if nd.evictable = flag then some r
      else if flag then
        some { r with m := mSet r.m fid { nd with evictable := true }, currSize := r.currSize + 1 }
      else
        some { r with m := mSet r.m fid { nd with evictable := false }, currSize := r.currSize - 1 }

/-- `LRUKReplacer::Remove`: silently no-ops when the frame is unknown;
otherwise unlinks the node from the list it is in, decrements
`curr_size_` iff it was evictable, and erases the map entry. -/
def removeFrame (r : LRUKReplacer) (fid : Nat) : LRUKReplacer :=
  match mGet r.m fid with
  | none => r
  | some nd =>
      let r' := if nd.inCache then { r with cache := listRemove r.cache fid }
                else { r with history := listRemove r.history fid }
      let r'' := if nd.evictable then { r' with currSize := r'.currSize - 1 } else r'
      { r'' with m := mErase r''.m fid }

/-- The scenario of claim C4 on a replacer with `k = 2` and `num_frames = N`:
record accesses on frames 1,2,3,4,5,6,1, set frames 1..5 evictable
(frame 6 is left non-evictable), then evict five times, collecting the
five results. -/
def lrukEvict5 (r : LRUKReplacer) : List (Option Nat) :=
  let p1 := evict r
  let p2 := evict p1.2
  let p3 := evict p2.2
  let p4 := evict p3.2
  let p5 := evict p4.2
  [p1.1, p2.1, p3.1, p4.1, p5.1]

def lrukScenario (N : Nat) : Option (List (Option Nat)) :=
  (recordAccess N (LRUKReplacer.new 2) 1).bind fun r =>
  (recordAccess N r 2).bind fun r =>
  (recordAccess N r 3).bind fun r =>
  (recordAccess N r 4).bind fun r =>
  (recordAccess N r 5).bind fun r =>
  (recordAccess N r 6).bind fun r =>
  (recordAccess N r 1).bind fun r =>
  (setEvictable r 1 true).bind fun r =>
  (setEvictable r 2 true).bind fun r =>
  (setEvictable r 3 true).bind fun r =>
  (setEvictable r 4 true).bind fun r =>
  (setEvictable r 5 true).bind fun r =>
  some (lrukEvict5 r)

/-- The recorded access count of a frame (0 if the frame is unknown). -/
def freqOf (r : LRUKReplacer) (fid : Nat) : Nat :=
  ((mGet r.m fid).map Node.frequence).getD 0

/-! ## Extendible hash table (`src/container/hash/extendible_hash_table.cpp`)

The directory `dir_` is a vector of `shared_ptr<Bucket>`: several slots
may reference the same bucket and a mutation through one slot is seen by
all.  The heap is therefore modelled explicitly: `store` is the list of
all buckets ever allocated and `dir` holds indices into it, so aliased
slots share one store cell.  `IndexOf` masks the hash with
`(1 << global_depth_) - 1`, i.e. reduces it modulo `2 ^ global_depth`.
The header `extendible_hash_table.h` is not part of the sources; the
trivial accessors it defines are modelled from the spec where noted. -/

section EHTSection

variable {K V : Type} [DecidableEq K]

/-- A bucket: its `std::list` of pairs, its `size_` (the capacity, which
`Bucket::Remove` decrements), and its `depth_`. -/
structure Bucket (K V : Type) where
  list : List (K × V)
  cap : Nat
  depth : Nat
deriving DecidableEq

/-- First binding of `k` in the bucket's list (`Bucket::Find` scans in
order and returns the first match). -/
def bucketFind : List (K × V) → K → Option V
  | [], _ => none
  | (k1, v) :: rest, k => if k1 = k then some v else bucketFind rest k

/-- Replace the value of the first binding of `k`. -/
def bucketUpdate : List (K × V) → K → V → List (K × V)
  | [], _, _ => []
  | (k1, v1) :: rest, k, v => if k1 = k then (k1, v) :: rest else (k1, v1) :: bucketUpdate rest k v

/-- Drop the first binding of `k`. -/
def bucketEraseFirst : List (K × V) → K → List (K × V)
  | [], _ => []
  | (k1, v1) :: rest, k => if k1 = k then rest else (k1, v1) :: bucketEraseFirst rest k

/-- Modelled from the spec: `Bucket::IsFull` lives in the missing header
`extendible_hash_table.h`; the spec describes the bucket as a bounded
list of key/value pairs, so the bucket is full when its list has reached
its capacity `size_`. -/
def Bucket.full (b : Bucket K V) : Prop := b.cap ≤ b.list.length

instance (b : Bucket K V) : Decidable b.full := Nat.decLe _ _

/-- `Bucket::Insert`: refuse (returning `false`) when the bucket is full
— even when `k` is already present; otherwise update the existing
binding or append a new one. -/
def Bucket.insert (b : Bucket K V) (k : K) (v : V) : Bool × Bucket K V :=
  if b.full then (false, b)
  else if (bucketFind b.list k).isSome then (true, { b with list := bucketUpdate b.list k v })
  else (true, { b with list := b.list ++ [(k, v)] })

/-- `Bucket::Remove`: erase the first binding of `k` and decrement
`size_` (the capacity). -/
def Bucket.remove (b : Bucket K V) (k : K) : Bool × Bucket K V :=
  if (bucketFind b.list k).isSome then
    (true, { b with list := bucketEraseFirst b.list k, cap := b.cap - 1 })
  else (false, b)

/-- The extendible hash table state.  `numBuckets` is the source's
`int num_buckets_`; `bucketSize` the constructor's `bucket_size_`. -/
structure EHT (K V : Type) where
  globalDepth : Nat
  bucketSize : Nat
  numBuckets : Nat
  dir : List Nat
  store : List (Bucket K V)
deriving DecidableEq

/-- `ExtendibleHashTable(bucket_size)`: depth 0, one bucket, directory of
one slot. -/
def EHT.new (K V : Type) (bucketSize : Nat) : EHT K V :=
  ⟨0, bucketSize, 1, [0], [⟨[], bucketSize, 0⟩]⟩

/-- `GetNumBucketsInternal`. -/
def EHT.getNumBuckets (s : EHT K V) : Nat := s.numBuckets

variable (hash : K → Nat)

/-- `IndexOf`: the low `global_depth_` bits of the key's hash. -/
def indexOf (s : EHT K V) (k : K) : Nat := hash k % 2 ^ s.globalDepth

/-- The bucket referenced by directory slot `i` (out-of-range access,
which is undefined behavior in the source, yields a junk bucket). -/
def bucketAt (s : EHT K V) (i : Nat) : Bucket K V :=
  s.store.getD (s.dir.getD i 0) ⟨[], 0, 0⟩

/-- `ExtendibleHashTable::Find`. -/
def EHT.findK (s : EHT K V) (k : K) : Option V :=
  bucketFind (bucketAt s (indexOf hash s k)).list k

/-- `ExtendibleHashTable::Remove`. -/
def EHT.removeK (s : EHT K V) (k : K) : Bool × EHT K V :=
  let bi := s.dir.getD (indexOf hash s k) 0
  let p := (s.store.getD bi ⟨[], 0, 0⟩).remove k
  (p.1, { s with store := s.store.set bi p.2 })

/-- The directory-doubling loop
`for (i = 0; i < num_buckets_; i++) dir_.push_back(dir_[i]);`:
`pushAux n i dir` appends `dir[i], dir[i+1], …` `n` times, re-reading
the growing vector as the source does. -/
def pushAux : Nat → Nat → List Nat → List Nat
  | 0, _, dir => dir
  | n + 1, i, dir => pushAux n (i + 1) (dir ++ [dir.getD i 0])

/-- One application of the rewiring loop
`for (i = hash(key) & (high_bit - 1); i < dir_.size(); i += high_bit)`:
applying `f` at every index is the same as the strided loop because `f`
returns the slot unchanged when the index is not congruent to the
start. -/
def rewireAux (f : Nat → Nat → Nat) : Nat → List Nat → List Nat
  | _, [] => []
  | i, bi :: rest => f i bi :: rewireAux f (i + 1) rest

/-- Redistribute the items of the split bucket over the two replacement
buckets by bit `d` of each key's hash, using `Bucket::Insert` as the
source does. -/
def redistribute (d : Nat) (items : List (K × V)) (p : Bucket K V × Bucket K V) :
    Bucket K V × Bucket K V :=
  items.foldl
    (fun pq kv =>
      if Nat.testBit (hash kv.1) d then (pq.1, (pq.2.insert kv.1 kv.2).2)
      else ((pq.1.insert kv.1 kv.2).2, pq.2))
    p

/-- The directory-doubling phase of the split (`dir_.push_back` loop,
`num_buckets_ *= 2`, `global_depth_++`). -/
def doubleStep (s : EHT K V) : EHT K V :=
  { s with dir := pushAux s.numBuckets 0 s.dir,
           numBuckets := s.numBuckets * 2,
           globalDepth := s.globalDepth + 1 }

/-- The allocation-and-rewiring phase of the split: the two replacement
buckets are appended to the heap (becoming references `store.length` and
`store.length + 1`, the source's fresh `shared_ptr`s `p0`/`p1`) and
every slot congruent to `hash(key) & (high_bit - 1)` modulo
`high_bit = 2 ^ d` is rewired to the one selected by bit `d` of the
slot index. -/
def rewireStep (s1 : EHT K V) (k : K) (d : Nat) (p0 p1 : Bucket K V) : EHT K V :=
  { s1 with
    dir := rewireAux
      (fun i bi => if i % 2 ^ d = hash k % 2 ^ d then (if Nat.testBit i d then s1.store.length + 1 else s1.store.length) else bi)
      0 s1.dir,
    store := s1.store ++ [p0, p1] }

/-- The split step of `ExtendibleHashTable::Insert` for the full bucket
`b` (global-depth doubling if needed, creation of the two replacement
buckets, redistribution, rewiring). -/
def splitStep (s : EHT K V) (k : K) : EHT K V :=
  let b := bucketAt s (indexOf hash s k)
  let d := b.depth
  let s1 : EHT K V := if b.depth = s.globalDepth then doubleStep s else s
  let pq := redistribute hash d b.list
    (⟨[], s.bucketSize, d + 1⟩, ⟨[], s.bucketSize, d + 1⟩)
  rewireStep hash s1 k d pq.1 pq.2

/-- `ExtendibleHashTable::Insert`, with the `while (bucket_ptr->IsFull())`
loop made explicit in the fuel argument: each recursive call is one
split iteration of the source's loop; `none` means the fuel ran out
before the loop exited. -/
def insertLoop : Nat → EHT K V → K → V → Option (EHT K V)
  | 0, _, _, _ => none
  | fuel + 1, s, k, v =>
      let i := indexOf hash s k
      let bi := s.dir.getD i 0
      let b := s.store.getD bi ⟨[], 0, 0⟩
      if b.full then
        if (bucketFind b.list k).isSome then
          -- `// update value`: the source calls Bucket::Insert, which
          -- refuses because the bucket is full, and returns
          some { s with store := s.store.set bi (b.insert k v).2 }
        else
          insertLoop fuel (splitStep hash s k) k v
      else
        some { s with store := s.store.set bi (b.insert k v).2 }

/-- States reachable through the public interface: a freshly constructed
table (with a usable, i.e. positive, bucket capacity) followed by any
sequence of inserts and removes.  An insert step is witnessed by any
fuel on which the source's split loop exits. -/
inductive Reachable (hash : K → Nat) : EHT K V → Prop where
  | base (B : Nat) (hB : 1 ≤ B) : Reachable hash (EHT.new K V B)
  | ins {s s2 : EHT K V} (f : Nat) (k : K) (v : V) (hs : Reachable hash s)
      (h : insertLoop hash f s k v = some s2) : Reachable hash s2
  | rem {s : EHT K V} (k : K) (hs : Reachable hash s) :
      Reachable hash (EHT.removeK hash s k).2

/-- Structural invariant of the table: `num_buckets_` matches the
directory length and `2 ^ global_depth_`; the capacity is positive;
directory slots reference live buckets; bucket depths are bounded by the
global depth; every element's hash agrees with its slot index modulo
`2 ^ local_depth`; and slots sharing a bucket are congruent modulo
`2 ^ local_depth`. -/
structure Inv (hash : K → Nat) (s : EHT K V) : Prop where
  nb_dir : s.numBuckets = s.dir.length
  dir_len : s.dir.length = 2 ^ s.globalDepth
  bsize : 1 ≤ s.bucketSize
  valid : ∀ bi ∈ s.dir, bi < s.store.length
  depth_le : ∀ i, i < s.dir.length → (bucketAt s i).depth ≤ s.globalDepth
  elem_cong : ∀ i, i < s.dir.length → ∀ kv ∈ (bucketAt s i).list,
      hash kv.1 % 2 ^ (bucketAt s i).depth = i % 2 ^ (bucketAt s i).depth
  share : ∀ i, i < s.dir.length → ∀ j, j < s.dir.length →
      s.dir.getD i 0 = s.dir.getD j 0 →
      i % 2 ^ (bucketAt s i).depth = j % 2 ^ (bucketAt s i).depth

end EHTSection

/-- `std::hash<int>` on the container's test instantiation
`ExtendibleHashTable<int, int>` is the identity. -/
def natHash : Nat → Nat := id

/-- The hash of the witness instantiation: values of `Fin 16`, injective
and bounded by `2 ^ 4`. -/
def finHash : Fin 16 → Nat := Fin.val

/-- The run refuting claim C8: with bucket capacity 4, fill the single
bucket with keys 0..3, then insert key 0 again with a new value; the
full bucket contains the key, `Bucket::Insert` refuses, and the old
value survives.  (The fuel 2 is not the limiting factor: no iteration
recurses in this run.) -/
def ehtC8Run : Option (EHT Nat Nat) :=
  (insertLoop natHash 2 (EHT.new Nat Nat 4) 0 100).bind fun s =>
  (insertLoop natHash 2 s 1 101).bind fun s =>
  (insertLoop natHash 2 s 2 102).bind fun s =>
  (insertLoop natHash 2 s 3 103).bind fun s =>
  insertLoop natHash 2 s 0 999

/-- A reachable state whose directory (4 slots) holds only 3 distinct
buckets: capacity 2, inserting keys 0, 2, 4 forces two splits and
leaves two slots sharing one bucket. -/
def ehtDupS1 : EHT Nat Nat :=
  (insertLoop natHash 5 (EHT.new Nat Nat 2) 0 10).getD (EHT.new Nat Nat 2)

def ehtDupS2 : EHT Nat Nat := (insertLoop natHash 5 ehtDupS1 2 12).getD ehtDupS1

def ehtDupState : EHT Nat Nat := (insertLoop natHash 5 ehtDupS2 4 14).getD ehtDupS2

/-! ## Buffer pool manager (`src/buffer/buffer_pool_manager_instance.cpp`)

Pages are addressed by `page_id_t` (`int`, with `INVALID_PAGE_ID = -1`),
modelled as `Int`.  A frame's 4 KiB buffer is abstracted to one `Nat`
token: `ResetMemory` writes `0`, `ReadPage`/`WritePage` move the token
between the frame and the disk map (a fresh disk page reads as `0`).
The `Page` class and the pool's `bucket_size_` constant live in headers
that are not part of the sources; following the spec, a fresh frame is
free (`page_id = INVALID`, pin count 0, clean, zeroed), and the page
table is the extendible hash table above (its bucket size, 4 here, is
immaterial to every property proved).  `std::hash<int>` of a negative
id is its two's-complement value, hence `intHash`. -/

def intHash (i : Int) : Nat := (i.emod (2 ^ 64)).toNat

structure Page where
  pageId : Int
  pinCount : Nat
  isDirty : Bool
  data : Nat
deriving DecidableEq

def diskRead : List (Int × Nat) → Int → Nat
  | [], _ => 0
  | (p, v) :: rest, pid => if p = pid then v else diskRead rest pid

def diskWrite : List (Int × Nat) → Int → Nat → List (Int × Nat)
  | [], pid, v => [(pid, v)]
  | (p, w) :: rest, pid, v => if p = pid then (p, v) :: rest else (p, w) :: diskWrite rest pid v

structure BPM where
  poolSize : Nat
  pages : List Page
  pageTable : EHT Int Nat
  replacer : LRUKReplacer
  freeList : List Nat
  nextPageId : Int
  disk : List (Int × Nat)
deriving DecidableEq

/-- `BufferPoolManagerInstance(pool_size, disk_manager, replacer_k)`:
fresh frames, all of them on the free list (frame `pool_size - 1` at the
back). -/
def BPM.new (n k : Nat) : BPM :=
  { poolSize := n,
    pages := List.replicate n ⟨-1, 0, false, 0⟩,
    pageTable := EHT.new Int Nat 4,
    replacer := LRUKReplacer.new k,
    freeList := List.range n,
    nextPageId := 0,
    disk := [] }

/-- The page-table insert; fuel 65 covers the split bound of the 64-bit
hash. -/
def ptInsert (t : EHT Int Nat) (k : Int) (v : Nat) : Option (EHT Int Nat) :=
  insertLoop intHash 65 t k v

/-- `GetPageFrameIdFromFreeListOrPool`: pop the back of the free list,
else ask the replacer to evict. -/
def BPM.getFrame (s : BPM) : Option (Nat × BPM) :=
  match s.freeList.getLast? with
  | some f => some (f, { s with freeList := s.freeList.dropLast })
  | none =>
      let p := evict s.replacer
      match p.1 with
      | some f => some (f, { s with replacer := p.2 })
      | none => none

def junkPage : Page := ⟨-1, 0, false, 0⟩

/-- `NewPgImp`: obtain a frame, write it back if dirty, drop it from
replacer and page table, zero it, stamp a fresh page id, register and
pin it.  The outer `Option` is a replacer exception (never hit in a
valid run); the inner one is the source's `nullptr` return. -/
def BPM.newPg (s : BPM) : Option (Option (Int × Nat) × BPM) :=
  match BPM.getFrame s with
  | none => some (none, s)
  | some (fid, s1) =>
      let pg := s1.pages.getD fid junkPage
      let disk1 := if pg.isDirty then diskWrite s1.disk pg.pageId pg.data else s1.disk
      let rep1 := removeFrame s1.replacer fid
      let pt1 := (EHT.removeK intHash s1.pageTable pg.pageId).2
      let newId := s1.nextPageId
      (ptInsert pt1 newId fid).bind fun pt2 =>
      (recordAccess s.poolSize rep1 fid).bind fun rep2 =>
      (setEvictable rep2 fid false).bind fun rep3 =>
      some (some (newId, fid),
        { s1 with pages := s1.pages.set fid { pg with data := 0, pageId := newId, pinCount := 1 },
                  pageTable := pt2, replacer := rep3,
                  nextPageId := s1.nextPageId + 1, disk := disk1 })

/-- `FetchPgImp`.  On a page-table hit the source runs
`pages_->pin_count_++`, which increments the pin count of the frame at
index 0 of the frame array, not of the found frame, before recording the
access and returning the found frame.  On a miss it behaves like
`NewPgImp` but reads the page from disk (and inserts the page-table
binding twice, as the source does). -/
def BPM.fetchPg (s : BPM) (pid : Int) : Option (Option Nat × BPM) :=
  match EHT.findK intHash s.pageTable pid with
  | some fid =>
      let pg0 := s.pages.getD 0 junkPage
      (recordAccess s.poolSize s.replacer fid).bind fun rep2 =>
      (setEvictable rep2 fid false).bind fun rep3 =>
      some (some fid,
        { s with pages := s.pages.set 0 { pg0 with pinCount := pg0.pinCount + 1 },
                 replacer := rep3 })
  | none =>
      match BPM.getFrame s with
      | none => some (none, s)
      | some (fid, s1) =>
          let pg := s1.pages.getD fid junkPage
          let disk1 := if pg.isDirty then diskWrite s1.disk pg.pageId pg.data else s1.disk
          let rep1 := removeFrame s1.replacer fid
          let pt1 := (EHT.removeK intHash s1.pageTable pg.pageId).2
          let newData := diskRead disk1 pid
          (ptInsert pt1 pid fid).bind fun pt2 =>
      (ptInsert pt2 pid fid).bind fun pt3 =>
      (recordAccess s.poolSize rep1 fid).bind fun rep2 =>
      (setEvictable rep2 fid false).bind fun rep3 =>
      some (some fid,
        { s1 with pages := s1.pages.set fid { pg with data := newData, pageId := pid, pinCount := 1 },
                  pageTable := pt3, replacer := rep3, disk := disk1 })

/-- `UnpinPgImp`: fail on a non-resident page or a zero pin count;
otherwise assign (not OR) `is_dirty` into the frame's dirty flag,
decrement the pin count, and mark the frame evictable when it reaches
zero. -/
def BPM.unpinPg (s : BPM) (pid : Int) (dirty : Bool) : Option (Bool × BPM) :=
  match EHT.findK intHash s.pageTable pid with
  | none => some (false, s)
  | some fid =>
      let pg := s.pages.getD fid junkPage
      if pg.pinCount = 0 then some (false, s)
      else
        let pg1 := { pg with isDirty := dirty, pinCount := pg.pinCount - 1 }
        let s1 := { s with pages := s.pages.set fid pg1 }
        if pg.pinCount - 1 = 0 then
          (setEvictable s1.replacer fid true).map fun rep => (true, { s1 with replacer := rep })
        else some (true, s1)

/-- `DeletePgImp`: returns `false` when the page is not resident;
otherwise — without checking the pin count — writes the page to disk,
clears its metadata, removes it from replacer and page table, pushes the
frame onto the free list, and returns `true`.  It never calls
`DeallocatePage`. -/
def BPM.deletePg (s : BPM) (pid : Int) : Bool × BPM :=
  match EHT.findK intHash s.pageTable pid with
  | none => (false, s)
  | some fid =>
      let pg := s.pages.getD fid junkPage
      let disk1 := diskWrite s.disk pid pg.data
      let rep1 := removeFrame s.replacer fid
      let pt1 := (EHT.removeK intHash s.pageTable pid).2
      (true, { s with pages := s.pages.set fid ⟨-1, 0, false, 0⟩,
                      replacer := rep1, pageTable := pt1,
                      freeList := s.freeList ++ [fid], disk := disk1 })

/-- Pool of two frames for claim C1: two `new_page` calls (page 0 goes
to frame 1, page 1 to frame 0), then `fetch_page 0`, whose target is
resident in frame 1. -/
def bpmC1s0 : BPM := BPM.new 2 2

def bpmC1s1 : BPM := ((BPM.newPg bpmC1s0).getD (none, bpmC1s0)).2

def bpmC1s2 : BPM := ((BPM.newPg bpmC1s1).getD (none, bpmC1s1)).2

def bpmC1res : Option (Option Nat × BPM) := BPM.fetchPg bpmC1s2 0

/-- Single-frame pool for claim C2: `new_page`, `unpin(0, true)` (the
frame becomes dirty), `fetch_page 0` (pin count back to 1), then
`unpin(0, false)`. -/
def bpmC2s1 : BPM := ((BPM.newPg (BPM.new 1 2)).getD (none, BPM.new 1 2)).2

def bpmC2s2 : BPM := ((BPM.unpinPg bpmC2s1 0 true).getD (false, bpmC2s1)).2

def bpmC2s3 : BPM := ((BPM.fetchPg bpmC2s2 0).getD (none, bpmC2s2)).2

def bpmC2res : Option (Bool × BPM) := BPM.unpinPg bpmC2s3 0 false

/-- Single-frame pool for claim C3: `delete_page 5` on the fresh pool
(page 5 is not resident), and `delete_page 0` right after `new_page`
created page 0 with pin count 1. -/
def bpmC3s0 : BPM := BPM.new 1 2

def bpmC3s1 : BPM := ((BPM.newPg bpmC3s0).getD (none, bpmC3s0)).2

/-! ## B+ tree (`src/storage/index/b_plus_tree.cpp`,
`b_plus_tree_leaf_page.cpp`, `b_plus_tree_internal_page.cpp`)

Keys and record ids are modelled as `Nat` with the natural order as the
`KeyComparator` (the generic comparator returns negative, zero, or
positive; the binary searches below branch on those three outcomes).
The tree reaches its pages only through the buffer pool; for these
single-threaded functional properties the pool is abstracted to the
page-id → page map `pages` that every fetch reads and every release
writes, with `nextPageId` standing for the pool's allocator
(page id 0 is the reserved header page, so allocation starts at 1; the
header-page record of `UpdateRootPageId` is not observed by any claim
and is not carried).  A leaf page is its header plus the slots
`[0, size)`; an internal page is its header, the child pointer of slot 0
(`firstChild`), and the populated slots `[1, size]`.  Fetching a page id
that is not in the map (undefined behavior in the source) leaves the
affected operation stuck (`none`). -/

inductive TreePage where
  | leaf (pageId parentId : Int) (maxSize : Nat) (nextPageId : Int)
      (entries : List (Nat × Nat))
  | internal (pageId parentId : Int) (maxSize : Nat) (firstChild : Int)
      (slots : List (Nat × Int))
deriving DecidableEq

def TreePage.isLeafPage : TreePage → Bool
  | .leaf .. => true
  | .internal .. => false

def TreePage.setParent : TreePage → Int → TreePage
  | .leaf pid _ m nx e, par => .leaf pid par m nx e
  | .internal pid _ m fc sl, par => .internal pid par m fc sl

def pget : List (Int × TreePage) → Int → Option TreePage
  | [], _ => none
  | (p, pg) :: rest, pid => if p = pid then some pg else pget rest pid

def pset : List (Int × TreePage) → Int → TreePage → List (Int × TreePage)
  | [], pid, pg => [(pid, pg)]
  | (p, q) :: rest, pid, pg => if p = pid then (p, pg) :: rest else (p, q) :: pset rest pid pg

/-- `SetParentPageId` on a stored page (a fetch of a missing page is
undefined in the source and never happens in the runs below; it is a
no-op here). -/
def psetParent (pages : List (Int × TreePage)) (pid par : Int) : List (Int × TreePage) :=
  match pget pages pid with
  | none => pages
  | some pg => pset pages pid (pg.setParent par)

/-- The loop of `LookupKey` (binary search for equality); the interval
shrinks every iteration, so `size + 1` units of fuel always reach the
source's exit. -/
def lookupLoop (arr : List (Nat × Nat)) (key : Nat) : Nat → Int → Int → Option Nat
  | 0, _, _ => none
  | fuel + 1, b, e =>
      if b ≤ e then
        let mid : Int := b + (e - b) / 2
        let entry := arr.getD mid.toNat (0, 0)
        if entry.1 < key then lookupLoop arr key fuel (mid + 1) e
        else if key < entry.1 then lookupLoop arr key fuel b (mid - 1)
        else some entry.2
      else none

/-- `BPlusTreeLeafPage::LookupKey`. -/
def leafLookup (entries : List (Nat × Nat)) (key : Nat) : Option Nat :=
  if entries.length = 0 then none
  else lookupLoop entries key (entries.length + 1) 0 ((entries.length : Int) - 1)

/-- The loop of `PositionOfNearestKey`: like `lookupLoop` but returning
the slot (`mid` on a match, the final `begin` otherwise). -/
def posLoop (arr : List (Nat × Nat)) (key : Nat) : Nat → Int → Int → Int
  | 0, b, _ => b
  | fuel + 1, b, e =>
      if b ≤ e then
        let mid : Int := b + (e - b) / 2
        let entry := arr.getD mid.toNat (0, 0)
        if entry.1 < key then posLoop arr key fuel (mid + 1) e
        else if key < entry.1 then posLoop arr key fuel b (mid - 1)
        else mid
      else b

/-- `BPlusTreeLeafPage::PositionOfNearestKey`. -/
def positionOfNearestKey (entries : List (Nat × Nat)) (key : Nat) : Int :=
  if entries.length = 0 then 0
  else posLoop entries key (entries.length + 1) 0 ((entries.length : Int) - 1)

/-- `BPlusTreeLeafPage::Insert`: reject an equal key at the found slot,
otherwise shift the tail up and place the pair at the slot. -/
def leafInsert (entries : List (Nat × Nat)) (key val : Nat) : Bool × List (Nat × Nat) :=
  if entries.length = 0 then (true, [(key, val)])
  else
    let pos := (positionOfNearestKey entries key).toNat
    if pos < entries.length ∧ (entries.getD pos (0, 0)).1 = key then (false, entries)
    else (true, entries.take pos ++ (key, val) :: entries.drop pos)

/-- The loop of `BPlusTreeInternalPage::GetKeySlotPosition` over the
populated slots (`array_[mid].first` for `mid ≥ 1` is `slots[mid-1]`);
returns an early match or the final `(begin, end)`. -/
def gksLoop (slots : List (Nat × Int)) (key : Nat) : Nat → Int → Int → Option Int × Int × Int
  | 0, b, e => (none, b, e)
  | fuel + 1, b, e =>
      if b ≤ e then
        let mid : Int := b + (e - b) / 2
        let mk := (slots.getD (mid - 1).toNat (0, -1)).1
        if mk < key then gksLoop slots key fuel (mid + 1) e
        else if key < mk then gksLoop slots key fuel b (mid - 1)
        else (some mid, b, e)
      else (none, b, e)

/-- `BPlusTreeInternalPage::GetKeySlotPosition` with the source's
post-processing of `begin`/`end`. -/
def getKeySlotPosition (slots : List (Nat × Int)) (key : Nat) : Int :=
  let size : Int := (slots.length : Int)
  match gksLoop slots key (slots.length + 1) 1 size with
  | (some mid, _, _) => mid
  | (none, b, e) => if b > size then size else if e = 0 then 0 else b

/-- `BPlusTreeInternalPage::ValueAt`: slot 0 is the leftmost child
pointer, slot `i ≥ 1` the pointer of the `i`-th populated slot. -/
def internalValueAt (firstChild : Int) (slots : List (Nat × Int)) (i : Int) : Int :=
  if i = 0 then firstChild else (slots.getD (i - 1).toNat (0, -1)).2

structure BPT where
  rootPageId : Int
  leafMaxSize : Nat
  internalMaxSize : Nat
  pages : List (Int × TreePage)
  nextPageId : Int
deriving DecidableEq

def getPage (t : BPT) (pid : Int) : Option TreePage := pget t.pages pid

/-- The loop of `GetLeafPageId`: descend while the current page exists
and is internal, following `ValueAt (GetKeySlotPosition key)`.  The
source's loop visits a fresh page each step on any well-formed tree, so
`pages.length + 1` units of fuel reach its exit; on fuel exhaustion the
current id is returned (below, every use checks that the result is a
resident leaf, which forces agreement with the source). -/
def descendLoop (t : BPT) (key : Nat) : Nat → Int → Int
  | 0, pid => pid
  | fuel + 1, pid =>
      match getPage t pid with
      | none => pid
      | some (TreePage.leaf ..) => pid
      | some (TreePage.internal _ _ _ fc slots) =>
          descendLoop t key fuel (internalValueAt fc slots (getKeySlotPosition slots key))

/-- `GetLeafPageId` (also the `transaction == nullptr` path of
`GetLeafPageIdByCrabbingLock`, the one every claim below exercises). -/
def getLeafPageId (t : BPT) (key : Nat) : Int :=
  if t.rootPageId = -1 then -1
  else descendLoop t key (t.pages.length + 1) t.rootPageId

/-- `InitNewRootPage`: allocate a leaf, make it the root. -/
def initNewRootPage (t : BPT) : BPT :=
  if t.rootPageId = -1 then
    let pid := t.nextPageId
    { t with pages := pset t.pages pid (.leaf pid (-1) t.leafMaxSize (-1) []),
             rootPageId := pid, nextPageId := t.nextPageId + 1 }
  else t

/-- `InsertIntoInternalPage`: install a new root when the split child
was the root; append into a parent with room; otherwise split the
parent around slot `(size + 2) / 2`, hoist that slot's key, and recurse
toward the grandparent.  The parent chain shortens every recursion on a
well-formed tree, so `pages.length + 1` units of fuel reach the
source's exit. -/
def insertIntoInternalPage (t : BPT) : Nat → Int → Nat → Int → Int → Option BPT
  | 0, _, _, _, _ => none
  | fuel + 1, parentId, childKey, leftId, rightId =>
      if parentId = -1 then
        let newRootId := t.nextPageId
        let root : TreePage := .internal newRootId (-1) t.internalMaxSize leftId [(childKey, rightId)]
        let pgs1 := pset t.pages newRootId root
        let pgs2 := psetParent (psetParent pgs1 leftId newRootId) rightId newRootId
        some { t with pages := pgs2, rootPageId := newRootId, nextPageId := t.nextPageId + 1 }
      else
        match pget t.pages parentId with
        | some (TreePage.internal pid par maxM fc slots) =>
            if maxM ≤ slots.length then
              -- split the parent
              let newPageId := t.nextPageId
              let b := (slots.length + 2) / 2
              let midKV := slots.getD (b - 1) (0, -1)
              let moved := slots.drop b
              let newPage : TreePage := .internal newPageId (-1) t.internalMaxSize midKV.2 (moved ++ [(childKey, rightId)])
              let oldPage : TreePage := .internal pid par maxM fc (slots.take (b - 1))
              let pgs1 := moved.foldl (fun pgs kv => psetParent pgs kv.2 newPageId) t.pages
              let pgs2 := psetParent pgs1 rightId newPageId
              let pgs3 := pset (pset pgs2 pid oldPage) newPageId newPage
              insertIntoInternalPage
                { t with pages := pgs3, nextPageId := t.nextPageId + 1 }
                fuel par midKV.1 pid newPageId
            else
              let pgs1 := psetParent t.pages rightId parentId
              let pgs2 := pset pgs1 pid (.internal pid par maxM fc (slots ++ [(childKey, rightId)]))
              some { t with pages := pgs2 }
        | _ => none


/-- `BPlusTree::Insert` (with `transaction = nullptr`): create the root
leaf if the tree is empty, descend to the target leaf, reject a
duplicate key, insert into the leaf, and split it when its size reaches
`max_size` — the upper half `[size/2, size)` moves to a fresh leaf that
is chained after the old one, and the fresh leaf's first key is promoted
into the parent. -/
def BPT.insert (t0 : BPT) (key val : Nat) : Option (Bool × BPT) :=
  let t := if t0.rootPageId = -1 then initNewRootPage t0 else t0
  match getPage t (getLeafPageId t key) with
  | some (TreePage.leaf pid par maxL next entries) =>
      if (leafLookup entries key).isSome then some (false, t)
      else
        let r := leafInsert entries key val
        if r.1 = false then some (false, t)
        else
          let entries1 := r.2
          let t1 : BPT := { t with pages := pset t.pages pid (.leaf pid par maxL next entries1) }
          if maxL ≤ entries1.length then
            let newId := t1.nextPageId
            let b := entries1.length / 2
            let moved := entries1.drop b
            let newLeaf : TreePage := .leaf newId (-1) t.leafMaxSize next moved
            let oldLeaf : TreePage := .leaf pid par maxL newId (entries1.take b)
            let t2 : BPT := { t1 with pages := pset (pset t1.pages pid oldLeaf) newId newLeaf,
                                      nextPageId := t1.nextPageId + 1 }
            (insertIntoInternalPage t2 (t2.pages.length + 1) par (moved.getD 0 (0, 0)).1 pid newId).map
              fun t3 => (true, t3)
          else some (true, t1)
  | _ => none

/-- The empty tree of scenario C6 (`L = 4`; `M = 4` is not exercised
before the scenario ends). -/
def bptEmpty : BPT :=
  { rootPageId := -1, leafMaxSize := 4, internalMaxSize := 4, pages := [], nextPageId := 1 }

def bptStep (t : BPT) (key : Nat) : BPT := ((BPT.insert t key (100 + key)).getD (false, t)).2

/-- The tree after inserting keys 10, 20, 30, 40 into the empty tree. -/
def bptC6s4 : BPT := bptStep (bptStep (bptStep (bptStep bptEmpty 10) 20) 30) 40

/-- The tree after the subsequent insert of 25. -/
def bptC6s5 : BPT := bptStep bptC6s4 25

/-- A one-leaf tree already holding key 5, the witness input for the
duplicate-insert theorem. -/
def bptDupTree : BPT :=
  { rootPageId := 1, leafMaxSize := 4, internalMaxSize := 4,
    pages := [(1, .leaf 1 (-1) 4 (-1) [(5, 50)])], nextPageId := 2 }

/-! ## Theorems -/

theorem mGet_mSet (m : List (Nat × Node)) (fid : Nat) (nd : Node) :
    mGet (mSet m fid nd) fid = some nd := by
  induction m with
  | nil => simp [mGet, mSet]
  | cons p rest ih =>
      by_cases h : p.1 = fid
      · simp [mGet, mSet, h]
      · simp [mGet, mSet, h, ih]

theorem recordAccess_of_le (N fid : Nat) (r : LRUKReplacer) (h : fid ≤ N) :
    recordAccess N r fid = some (recordAccessGo r fid) := by
  unfold recordAccess
  rw [if_neg (by omega)]

/-- Claim C4: on an LRU-K replacer with `k = 2` and any capacity `N ≥ 7`,
after accesses on frames 1,2,3,4,5,6,1 and making frames 1..5 evictable
(frame 6 left non-evictable), five successive evictions return frames
2, 3, 4, 5, 1 in that order. -/
theorem lruk_evict_order (N : Nat) (h : 7 ≤ N) :
    lrukScenario N = some [some 2, some 3, some 4, some 5, some 1] := by
  simp only [lrukScenario, recordAccess, gt_iff_lt]
  rw [if_neg (by omega : ¬ N < 1), Option.some_bind,
      if_neg (by omega : ¬ N < 2), Option.some_bind,
      if_neg (by omega : ¬ N < 3), Option.some_bind,
      if_neg (by omega : ¬ N < 4), Option.some_bind,
      if_neg (by omega : ¬ N < 5), Option.some_bind,
      if_neg (by omega : ¬ N < 6), Option.some_bind,
      if_neg (by omega : ¬ N < 1), Option.some_bind]
  decide

theorem lruk_evict_order_witness :
    7 ≤ 7 ∧ lrukScenario 7 = some [some 2, some 3, some 4, some 5, some 1] :=
  ⟨by decide, lruk_evict_order 7 (by decide)⟩

/-- Claim C5, counterexample: on a replacer built with `num_frames = 1`,
`record_access 1` has `fid ≥ N` yet does not raise — the source checks
`frame_id > replacer_size_`, not `≥`. -/
theorem recordAccess_boundary_counterexample :
    1 ≥ 1 ∧ recordAccess 1 (LRUKReplacer.new 2) 1 ≠ none := by decide

/-- Claim C5 (amended): `record_access fid` on a replacer built with
`num_frames = N` raises exactly when `fid > N`; for `fid ≤ N` it
succeeds, increments the frame's access count, and when the frame was
absent creates its node in the history list (promoted at once to the
cache list when `k ≤ 1`). -/
theorem recordAccess_error_iff (N : Nat) (r : LRUKReplacer) (fid : Nat) :
    (recordAccess N r fid = none ↔ N < fid) ∧
    (fid ≤ N →
      recordAccess N r fid = some (recordAccessGo r fid) ∧
      freqOf (recordAccessGo r fid) fid = freqOf r fid + 1 ∧
      (mGet r.m fid = none →
        if r.k ≤ 1 then fid ∈ (recordAccessGo r fid).cache.elems
        else fid ∈ (recordAccessGo r fid).history.elems)) := by
  constructor
  · unfold recordAccess
    by_cases h : N < fid
    · simp [h]
    · simp [h]
  · intro hle
    refine ⟨recordAccess_of_le N fid r hle, ?_, ?_⟩
    · unfold recordAccessGo freqOf
      cases h : mGet r.m fid with
      | none =>
          simp only [h, Option.getD_none, Option.map_none]
          by_cases hk : r.k ≤ 1
          · simp [hk, mGet_mSet]
          · simp [hk, mGet_mSet]
      | some nd =>
          simp only [h, Option.getD_some, Option.map_some]
          by_cases hc : nd.inCache
          · simp [hc, mGet_mSet]
          · by_cases hk : r.k ≤ nd.frequence + 1
            · simp [hc, hk, mGet_mSet]
            · simp [hc, hk, mGet_mSet]
    · intro habs
      unfold recordAccessGo
      simp only [habs, Option.getD_none]
      by_cases hk : r.k ≤ 1
      · simp [hk, pushFront]
      · simp [hk, pushFront, listRemove]

theorem recordAccess_error_iff_witness :
    (recordAccess 2 (LRUKReplacer.new 2) 5 = none) ∧
    (recordAccess 2 (LRUKReplacer.new 2) 1).isSome := by
  constructor
  · exact (recordAccess_error_iff 2 (LRUKReplacer.new 2) 5).1.mpr (by decide)
  · rw [((recordAccess_error_iff 2 (LRUKReplacer.new 2) 1).2 (by decide)).1]
    rfl

/-- Claim C1, evaluated at the failing input: pool of two frames, pages
0 and 1 resident in frames 1 and 0, both with pin count 1.  `fetch_page 0`
finds frame 1 in the page table and returns it with its access recorded
and eviction disabled — but `pages_->pin_count_++` increments the pin
count of frame 0, which becomes 2, while frame 1 stays at pin count 1. -/
theorem fetchPg_pin_wrong_frame :
    EHT.findK intHash bpmC1s2.pageTable 0 = some 1
    ∧ (bpmC1s2.pages.getD 1 junkPage).pinCount = 1
    ∧ (bpmC1res.map fun p =>
        (p.1, (p.2.pages.getD 1 junkPage).pinCount, (p.2.pages.getD 0 junkPage).pinCount))
      = some (some 1, 1, 2)
    ∧ (bpmC1res.map fun p => (mGet p.2.replacer.m 1).map Node.evictable)
      = some (some false) := by decide

/-- Claim C2, evaluated at the failing input: one frame, page 0 made
dirty by `unpin(0, true)`, refetched (pin count 1, still dirty);
`unpin(0, false)` then overwrites the dirty flag with `false` —
`pg->is_dirty_ = is_dirty` assigns instead of OR-ing, so dirty is not
sticky. -/
theorem unpinPg_dirty_not_sticky :
    (bpmC2s2.pages.getD 0 junkPage).isDirty = true
    ∧ (bpmC2s3.pages.getD 0 junkPage).isDirty = true
    ∧ (bpmC2s3.pages.getD 0 junkPage).pinCount = 1
    ∧ (bpmC2res.map fun p => (p.1, (p.2.pages.getD 0 junkPage).isDirty))
      = some (true, false) := by decide

/-- Claim C3, evaluated at the failing inputs: `delete_page 5` on a pool
not holding page 5 returns `false` (the claim says `true`), and
`delete_page 0` on a pool holding page 0 with pin count 1 returns `true`
and wipes the frame (the claim says `false` with the state unchanged). -/
theorem deletePg_contract_violated :
    (BPM.deletePg bpmC3s0 5).1 = false
    ∧ (bpmC3s1.pages.getD 0 junkPage).pinCount = 1
    ∧ (BPM.deletePg bpmC3s1 0).1 = true
    ∧ ((BPM.deletePg bpmC3s1 0).2.pages.getD 0 junkPage).pageId = -1 := by decide

/-- Claim C8, evaluated at the failing input: after filling a
capacity-4 bucket with keys 0..3, `insert (0, 999)` hits the full
bucket that already contains key 0; `Bucket::Insert` refuses because
the bucket is full, so `find 0` still returns the old value 100, not
999. -/
theorem eht_upsert_lost :
    (ehtC8Run.map fun s => EHT.findK natHash s 0) = some (some 100)
    ∧ (100 : Nat) ≠ 999 := by decide

/-- Claim C6, counterexample: with `L = 4`, inserting 10, 20, 30, 40
does not leave a single leaf — the leaf splits when its size reaches
`L` (the source checks `size >= max_size` after insertion), so the root
is already an internal page. -/
theorem bpt_scenario_counterexample :
    (getPage bptC6s4 bptC6s4.rootPageId).map TreePage.isLeafPage = some false := by decide

/-- Claim C6 (amended): with `L = 4`, the insert of 40 already splits
the leaf: the root (page 3) becomes internal with separator key 30,
left leaf [10, 20] whose `next_page_id` points at the right leaf
[30, 40].  The subsequent insert of 25 lands in the left leaf, giving
[10, 20, 25] with no further split; separator, right leaf and chaining
are unchanged — the final shape the claim describes. -/
theorem bpt_scenario_amended :
    bptC6s4.rootPageId = 3
    ∧ getPage bptC6s4 3 = some (.internal 3 (-1) 4 1 [(30, 2)])
    ∧ getPage bptC6s4 1 = some (.leaf 1 3 4 2 [(10, 110), (20, 120)])
    ∧ getPage bptC6s4 2 = some (.leaf 2 3 4 (-1) [(30, 130), (40, 140)])
    ∧ bptC6s5.rootPageId = 3
    ∧ getPage bptC6s5 3 = some (.internal 3 (-1) 4 1 [(30, 2)])
    ∧ getPage bptC6s5 1 = some (.leaf 1 3 4 2 [(10, 110), (20, 120), (25, 125)])
    ∧ getPage bptC6s5 2 = some (.leaf 2 3 4 (-1) [(30, 130), (40, 140)]) := by decide

/-- Claim C7: on a non-empty tree, when the descent for `key` reaches a
resident leaf that already contains `key`, `insert` returns `false` and
leaves the whole tree state — every page and the root page id —
unchanged. -/
theorem bpt_insert_duplicate (t : BPT) (key val : Nat) (pid par : Int) (maxL : Nat)
    (next : Int) (entries : List (Nat × Nat))
    (hroot : ¬ t.rootPageId = -1)
    (hleaf : getPage t (getLeafPageId t key) = some (.leaf pid par maxL next entries))
    (hdup : (leafLookup entries key).isSome = true) :
    BPT.insert t key val = some (false, t) := by
  unfold BPT.insert
  rw [if_neg hroot]
  simp only [hleaf, hdup, if_true]

theorem bpt_insert_duplicate_witness :
    BPT.insert bptDupTree 5 99 = some (false, bptDupTree) :=
  bpt_insert_duplicate bptDupTree 5 99 1 (-1) 4 (-1) [(5, 50)]
    (by decide) (by decide) (by decide)

/-! ### Extendible-hash-table invariant development (claims C9 and C10) -/

section EHTProofs

theorem getD_set {α : Type} (l : List α) (n : Nat) (a : α) (m : Nat) (d : α) :
    (l.set n a).getD m d = if n = m ∧ n < l.length then a else l.getD m d := by
  induction l generalizing n m with
  | nil => simp
  | cons x xs ih =>
      cases n with
      | zero =>
          cases m with
          | zero => simp
          | succ m => simp
      | succ n =>
          cases m with
          | zero => simp
          | succ m =>
              simp only [List.set_cons_succ, List.getD_cons_succ, ih, List.length_cons]
              by_cases hc : n = m ∧ n < xs.length
              · rw [if_pos hc, if_pos (by omega)]
              · rw [if_neg hc, if_neg (by omega)]

theorem rewireAux_length (f : Nat → Nat → Nat) (l : List Nat) :
    ∀ i, (rewireAux f i l).length = l.length := by
  induction l with
  | nil => intro i; rfl
  | cons x xs ih => intro i; simp [rewireAux, ih]

theorem rewireAux_getD (f : Nat → Nat → Nat) (l : List Nat) :
    ∀ i m d, m < l.length → (rewireAux f i l).getD m d = f (i + m) (l.getD m d) := by
  induction l with
  | nil => intro i m d h; simp at h
  | cons x xs ih =>
      intro i m d h
      cases m with
      | zero => simp [rewireAux]
      | succ m =>
          simp only [rewireAux, List.getD_cons_succ]
          rw [ih (i + 1) m d (by simpa using h)]
          ring_nf

theorem pushAux_eq (n : Nat) :
    ∀ (i : Nat) (l : List Nat), i + n ≤ l.length →
      pushAux n i l = l ++ ((l.drop i).take n) := by
  induction n with
  | zero => intro i l _; simp [pushAux]
  | succ n ih =>
      intro i l h
      have hi : i < l.length := by omega
      rw [pushAux, ih (i + 1) (l ++ [l.getD i 0]) (by simp; omega)]
      rw [List.drop_append_of_le_length (by omega), List.take_append_of_le_length
        (by simp [List.length_drop]; omega)]
      rw [List.getD_eq_getElem l 0 hi, List.append_assoc]
      congr 1
      rw [List.drop_eq_getElem_cons hi]
      rfl

theorem mod_pow_of_le {x a b : Nat} (h : b ≤ a) : x % 2 ^ a % 2 ^ b = x % 2 ^ b :=
  Nat.mod_mod_of_dvd x (pow_dvd_pow 2 h)

theorem add_pow_mod {x g m : Nat} (h : m ≤ g) : (x + 2 ^ g) % 2 ^ m = x % 2 ^ m := by
  have : 2 ^ g = 2 ^ m * 2 ^ (g - m) := by rw [← pow_add]; congr 1; omega
  rw [this, Nat.add_mul_mod_self_left]

theorem mod_two_pow_succ (x d : Nat) : x % 2 ^ (d + 1) = x % 2 ^ d + 2 ^ d * (x / 2 ^ d % 2) := by
  rw [pow_succ, Nat.mod_mul]

theorem div_mod_two_of_testBit {x y d : Nat} (h : Nat.testBit x d = Nat.testBit y d) :
    x / 2 ^ d % 2 = y / 2 ^ d % 2 := by
  have hx := Nat.testBit_to_div_mod (x := x) (i := d)
  have hy := Nat.testBit_to_div_mod (x := y) (i := d)
  rcases Nat.mod_two_eq_zero_or_one (x / 2 ^ d) with h1 | h1 <;>
    rcases Nat.mod_two_eq_zero_or_one (y / 2 ^ d) with h2 | h2 <;>
      simp [h1, h2] at hx hy ⊢ <;> rw [hx, hy] at h <;> simp_all

theorem cong_succ_of_bit {x y d : Nat} (hm : x % 2 ^ d = y % 2 ^ d)
    (hb : Nat.testBit x d = Nat.testBit y d) : x % 2 ^ (d + 1) = y % 2 ^ (d + 1) := by
  rw [mod_two_pow_succ, mod_two_pow_succ, hm, div_mod_two_of_testBit hb]

section EHTBuckets

variable {K V : Type} [DecidableEq K]

theorem bucketFind_isSome_of_mem {l : List (K × V)} {k : K} {v : V} (h : (k, v) ∈ l) :
    (bucketFind l k).isSome := by
  induction l with
  | nil => simp at h
  | cons p rest ih =>
      obtain ⟨p1, p2⟩ := p
      rcases List.mem_cons.1 h with h | h
      · have hk : p1 = k := by cases h; rfl
        simp [bucketFind, hk]
      · by_cases hk : p1 = k
        · simp [bucketFind, hk]
        · simpa [bucketFind, hk] using ih h

theorem bucketUpdate_key_mem {l : List (K × V)} {k : K} {v : V} {kv : K × V}
    (h : kv ∈ bucketUpdate l k v) : ∃ w, (kv.1, w) ∈ l := by
  induction l with
  | nil => simp [bucketUpdate] at h
  | cons p rest ih =>
      obtain ⟨p1, p2⟩ := p
      by_cases hk : p1 = k
      · simp only [bucketUpdate, if_pos hk] at h
        rcases List.mem_cons.1 h with h | h
        · exact ⟨p2, by simp [h]⟩
        · exact ⟨kv.2, List.mem_cons_of_mem _ (by simpa using h)⟩
      · simp only [bucketUpdate, if_neg hk] at h
        rcases List.mem_cons.1 h with h | h
        · exact ⟨p2, by simp [h]⟩
        · obtain ⟨w, hw⟩ := ih h
          exact ⟨w, List.mem_cons_of_mem _ hw⟩

theorem bucketEraseFirst_subset {l : List (K × V)} {k : K} {kv : K × V}
    (h : kv ∈ bucketEraseFirst l k) : kv ∈ l := by
  induction l with
  | nil => simp [bucketEraseFirst] at h
  | cons p rest ih =>
      obtain ⟨p1, p2⟩ := p
      by_cases hk : p1 = k
      · simp only [bucketEraseFirst, if_pos hk] at h
        exact List.mem_cons_of_mem _ h
      · simp only [bucketEraseFirst, if_neg hk] at h
        rcases List.mem_cons.1 h with h | h
        · simp [h]
        · exact List.mem_cons_of_mem _ (ih h)

theorem Bucket.insert_depth (b : Bucket K V) (k : K) (v : V) :
    ((b.insert k v).2).depth = b.depth := by
  unfold Bucket.insert
  split <;> [rfl; split <;> rfl]

theorem Bucket.insert_cap (b : Bucket K V) (k : K) (v : V) :
    ((b.insert k v).2).cap = b.cap := by
  unfold Bucket.insert
  split <;> [rfl; split <;> rfl]

theorem Bucket.remove_depth (b : Bucket K V) (k : K) :
    ((b.remove k).2).depth = b.depth := by
  unfold Bucket.remove
  split <;> rfl

theorem Bucket.insert_key_mem {b : Bucket K V} {k : K} {v : V} {kv : K × V}
    (h : kv ∈ ((b.insert k v).2).list) : (∃ w, (kv.1, w) ∈ b.list) ∨ kv.1 = k := by
  unfold Bucket.insert at h
  split at h
  · exact .inl ⟨kv.2, by simpa using h⟩
  · split at h
    · simp only at h
      exact .inl (bucketUpdate_key_mem h)
    · simp only at h
      rcases List.mem_append.1 h with h | h
      · exact .inl ⟨kv.2, by simpa using h⟩
      · simp at h; exact .inr (by simp [h])

theorem redistribute_caps {hash : K → Nat} (d : Nat) (items : List (K × V)) :
    ∀ p : Bucket K V × Bucket K V,
      (redistribute hash d items p).1.depth = p.1.depth ∧
      (redistribute hash d items p).1.cap = p.1.cap ∧
      (redistribute hash d items p).2.depth = p.2.depth ∧
      (redistribute hash d items p).2.cap = p.2.cap := by
  induction items with
  | nil => intro p; simp [redistribute]
  | cons a rest ih =>
      intro p
      simp only [redistribute, List.foldl_cons]
      by_cases hb : Nat.testBit (hash a.1) d
      · have := ih (p.1, ((p.2.insert a.1 a.2).2))
        simp only [redistribute] at this
        simpa [hb, Bucket.insert_depth, Bucket.insert_cap] using this
      · have := ih (((p.1.insert a.1 a.2).2), p.2)
        simp only [redistribute] at this
        simpa [hb, Bucket.insert_depth, Bucket.insert_cap] using this

theorem redistribute_key_mem {hash : K → Nat} (d : Nat) (items : List (K × V)) :
    ∀ (p : Bucket K V × Bucket K V) (kv : K × V),
      (kv ∈ (redistribute hash d items p).1.list →
        (∃ w, (kv.1, w) ∈ p.1.list) ∨
          ((∃ w, (kv.1, w) ∈ items) ∧ Nat.testBit (hash kv.1) d = false)) ∧
      (kv ∈ (redistribute hash d items p).2.list →
        (∃ w, (kv.1, w) ∈ p.2.list) ∨
          ((∃ w, (kv.1, w) ∈ items) ∧ Nat.testBit (hash kv.1) d = true)) := by
  induction items with
  | nil =>
      intro p kv
      constructor <;> intro h <;> exact .inl ⟨kv.2, by simpa [redistribute] using h⟩
  | cons a rest ih =>
      intro p kv
      simp only [redistribute, List.foldl_cons]
      by_cases hb : Nat.testBit (hash a.1) d
      · have hih := ih (p.1, ((p.2.insert a.1 a.2).2)) kv
        simp only [redistribute] at hih
        rw [if_pos hb]
        refine ⟨fun h => ?_, fun h => ?_⟩
        · rcases hih.1 h with h1 | ⟨⟨w, hw⟩, hbit⟩
          · exact .inl h1
          · exact .inr ⟨⟨w, List.mem_cons_of_mem _ hw⟩, hbit⟩
        · rcases hih.2 h with ⟨w, hw⟩ | ⟨⟨w, hw⟩, hbit⟩
          · rcases Bucket.insert_key_mem hw with h2 | h2
            · exact .inl h2
            · exact .inr ⟨⟨a.2, by rw [h2]; simp⟩, by rw [h2]; exact hb⟩
          · exact .inr ⟨⟨w, List.mem_cons_of_mem _ hw⟩, hbit⟩
      · have hih := ih (((p.1.insert a.1 a.2).2), p.2) kv
        simp only [redistribute] at hih
        rw [if_neg hb]
        refine ⟨fun h => ?_, fun h => ?_⟩
        · rcases hih.1 h with ⟨w, hw⟩ | ⟨⟨w, hw⟩, hbit⟩
          · rcases Bucket.insert_key_mem hw with h2 | h2
            · exact .inl h2
            · exact .inr ⟨⟨a.2, by rw [h2]; simp⟩, by rw [h2]; simpa using hb⟩
          · exact .inr ⟨⟨w, List.mem_cons_of_mem _ hw⟩, hbit⟩
        · rcases hih.2 h with h1 | ⟨⟨w, hw⟩, hbit⟩
          · exact .inl h1
          · exact .inr ⟨⟨w, List.mem_cons_of_mem _ hw⟩, hbit⟩

theorem Bucket.remove_list_subset {b : Bucket K V} {k : K} {kv : K × V}
    (h : kv ∈ ((b.remove k).2).list) : kv ∈ b.list := by
  unfold Bucket.remove at h
  split at h
  · exact bucketEraseFirst_subset h
  · exact h

end EHTBuckets

section EHTInvariant

variable {K V : Type} [DecidableEq K] (hash : K → Nat)

theorem two_pow_pos' (n : Nat) : 0 < 2 ^ n := pow_pos (by norm_num) n

theorem bucketAt_store_set (s : EHT K V) (bi : Nat) (b2 : Bucket K V) (i : Nat) :
    bucketAt { s with store := s.store.set bi b2 } i =
      if bi = s.dir.getD i 0 ∧ bi < s.store.length then b2 else bucketAt s i := by
  show (s.store.set bi b2).getD (s.dir.getD i 0) ⟨[], 0, 0⟩ = _
  rw [getD_set]
  rfl

theorem Inv_new (B : Nat) (hB : 1 ≤ B) : Inv hash (EHT.new K V B) := by
  have hba : ∀ i, bucketAt (EHT.new K V B) i = ⟨[], B, 0⟩ := by
    intro i
    show ([⟨[], B, 0⟩] : List (Bucket K V)).getD (([0] : List Nat).getD i 0) ⟨[], 0, 0⟩ = _
    cases i <;> simp
  refine ⟨rfl, rfl, hB, ?_, ?_, ?_, ?_⟩
  · intro bi hbi
    simp only [EHT.new] at hbi ⊢
    simp at hbi
    simp [hbi]
  · intro i _
    rw [hba]
    exact Nat.zero_le _
  · intro i _ kv hkv
    rw [hba] at hkv
    simp at hkv
  · intro i _ j _ _
    rw [hba]
    simp [Nat.mod_one]

/-- Updating the bucket referenced by slot `i0` preserves the invariant
provided the replacement keeps the depth and each of its elements either
keys into the old bucket or is hash-congruent to `i0` at the bucket's
depth. -/
theorem Inv_store_update (s : EHT K V) (i0 : Nat) (hi0 : i0 < s.dir.length)
    (b2 : Bucket K V) (hs : Inv hash s)
    (hdep : b2.depth = (bucketAt s i0).depth)
    (hmem : ∀ kv ∈ b2.list, (∃ w, (kv.1, w) ∈ (bucketAt s i0).list) ∨
        hash kv.1 % 2 ^ (bucketAt s i0).depth = i0 % 2 ^ (bucketAt s i0).depth) :
    Inv hash { s with store := s.store.set (s.dir.getD i0 0) b2 } := by
  have hbase : bucketAt s i0 = s.store.getD (s.dir.getD i0 0) ⟨[], 0, 0⟩ := rfl
  refine ⟨hs.nb_dir, hs.dir_len, hs.bsize, ?_, ?_, ?_, ?_⟩
  · intro bi hbi
    show bi < (s.store.set _ b2).length
    rw [List.length_set]
    exact hs.valid bi hbi
  · intro i hi
    rw [bucketAt_store_set]
    split
    · next hc =>
        rw [hdep]
        exact hs.depth_le i0 hi0
    · exact hs.depth_le i hi
  · intro i hi kv hkv
    rw [bucketAt_store_set] at hkv ⊢
    split at hkv
    · next hc =>
        rw [if_pos hc]
        have hbb : bucketAt s i = bucketAt s i0 := by
          unfold bucketAt
          rw [← hc.1]
        have hshare : i0 % 2 ^ (bucketAt s i0).depth = i % 2 ^ (bucketAt s i0).depth := by
          have := hs.share i0 hi0 i hi (by rw [← hc.1])
          exact this
        rw [hdep]
        rcases hmem kv hkv with ⟨w, hw⟩ | hcong
        · have := hs.elem_cong i hi (kv.1, w) (by rw [hbb]; exact hw)
          rw [hbb] at this
          exact this
        · rw [hcong, hshare]
    · next hc =>
        rw [if_neg hc]
        exact hs.elem_cong i hi kv hkv
  · intro i hi j hj heq
    have heq' : s.dir.getD i 0 = s.dir.getD j 0 := heq
    rw [bucketAt_store_set]
    split
    · next hc =>
        have hbb : bucketAt s i = bucketAt s i0 := by
          unfold bucketAt
          rw [← hc.1]
        rw [hdep, ← hbb]
        exact hs.share i hi j hj heq'
    · exact hs.share i hi j hj heq'

theorem indexOf_lt_dir (s : EHT K V) (k : K) (hs : Inv hash s) :
    indexOf hash s k < s.dir.length := by
  rw [hs.dir_len]
  exact Nat.mod_lt _ (two_pow_pos' _)

theorem indexOf_cong (s : EHT K V) (k : K) (hs : Inv hash s) :
    hash k % 2 ^ (bucketAt s (indexOf hash s k)).depth
      = indexOf hash s k % 2 ^ (bucketAt s (indexOf hash s k)).depth := by
  have hd := hs.depth_le _ (indexOf_lt_dir hash s k hs)
  show hash k % 2 ^ _ = hash k % 2 ^ s.globalDepth % 2 ^ _
  rw [mod_pow_of_le hd]

theorem Inv_removeK (s : EHT K V) (k : K) (hs : Inv hash s) :
    Inv hash (EHT.removeK hash s k).2 := by
  have hi0 := indexOf_lt_dir hash s k hs
  refine Inv_store_update hash s _ hi0 _ hs (Bucket.remove_depth _ _) ?_
  intro kv hkv
  left
  refine ⟨kv.2, ?_⟩
  have h2 : kv ∈ (bucketAt s (indexOf hash s k)).list := Bucket.remove_list_subset hkv
  simpa using h2

theorem Inv_insertTerminal (s : EHT K V) (k : K) (v : V) (hs : Inv hash s) :
    Inv hash { s with store := s.store.set (s.dir.getD (indexOf hash s k) 0) (((s.store.getD (s.dir.getD (indexOf hash s k) 0) ⟨[], 0, 0⟩).insert k v).2) } := by
  have hi0 := indexOf_lt_dir hash s k hs
  refine Inv_store_update hash s _ hi0 _ hs (Bucket.insert_depth _ _ _) ?_
  intro kv hkv
  rcases Bucket.insert_key_mem hkv with h | h
  · exact .inl h
  · right
    rw [h]
    exact indexOf_cong hash s k hs

theorem double_dir (s : EHT K V) (hs : Inv hash s) :
    pushAux s.numBuckets 0 s.dir = s.dir ++ s.dir := by
  rw [hs.nb_dir, pushAux_eq s.dir.length 0 s.dir (by omega)]
  simp

theorem double_getD (s : EHT K V) (hs : Inv hash s) (i : Nat)
    (hi : i < 2 ^ (s.globalDepth + 1)) :
    (s.dir ++ s.dir).getD i 0 = s.dir.getD (i % 2 ^ s.globalDepth) 0 := by
  have hlen : s.dir.length = 2 ^ s.globalDepth := hs.dir_len
  by_cases h : i < s.dir.length
  · rw [List.getD_append _ _ _ _ h, Nat.mod_eq_of_lt (by omega)]
  · push_neg at h
    have h2 : i % 2 ^ s.globalDepth = i - 2 ^ s.globalDepth := by
      rw [Nat.mod_eq_sub_mod (by omega), Nat.mod_eq_of_lt (by rw [pow_succ] at hi; omega)]
    rw [List.getD_append_right _ _ _ _ h, h2, hlen]

theorem double_bucketAt (s : EHT K V) (hs : Inv hash s) (i : Nat)
    (hi : i < 2 ^ (s.globalDepth + 1)) :
    bucketAt { s with dir := pushAux s.numBuckets 0 s.dir, numBuckets := s.numBuckets * 2, globalDepth := s.globalDepth + 1 } i
      = bucketAt s (i % 2 ^ s.globalDepth) := by
  show s.store.getD ((pushAux s.numBuckets 0 s.dir).getD i 0) ⟨[], 0, 0⟩ = _
  rw [double_dir hash s hs, double_getD hash s hs i hi]
  rfl

theorem Inv_double (s : EHT K V) (hs : Inv hash s) :
    Inv hash { s with dir := pushAux s.numBuckets 0 s.dir, numBuckets := s.numBuckets * 2, globalDepth := s.globalDepth + 1 } := by
  have hlen : s.dir.length = 2 ^ s.globalDepth := hs.dir_len
  have hdd := double_dir hash s hs
  have hlen2 : (pushAux s.numBuckets 0 s.dir).length = 2 ^ (s.globalDepth + 1) := by
    rw [hdd]
    simp only [List.length_append]
    rw [hlen, pow_succ]
    omega
  refine ⟨?_, ?_, hs.bsize, ?_, ?_, ?_, ?_⟩
  · show s.numBuckets * 2 = _
    rw [hlen2, hs.nb_dir, hlen, pow_succ]
  · exact hlen2
  · intro bi hbi
    rw [hdd] at hbi
    rcases List.mem_append.1 hbi with h | h
    · exact hs.valid bi h
    · exact hs.valid bi h
  · intro i hi
    rw [hlen2] at hi
    rw [double_bucketAt hash s hs i hi]
    exact Nat.le_succ_of_le (hs.depth_le _ (by rw [hlen]; exact Nat.mod_lt _ (two_pow_pos' _)))
  · intro i hi kv hkv
    rw [hlen2] at hi
    rw [double_bucketAt hash s hs i hi] at hkv ⊢
    have hi' : i % 2 ^ s.globalDepth < s.dir.length := by
      rw [hlen]; exact Nat.mod_lt _ (two_pow_pos' _)
    have hec := hs.elem_cong _ hi' kv hkv
    rw [hec, mod_pow_of_le (hs.depth_le _ hi')]
  · intro i hi j hj heq
    rw [hlen2] at hi hj
    have heq' : (pushAux s.numBuckets 0 s.dir).getD i 0 = (pushAux s.numBuckets 0 s.dir).getD j 0 := heq
    rw [hdd, double_getD hash s hs i hi, double_getD hash s hs j hj] at heq'
    rw [double_bucketAt hash s hs i hi]
    have hi' : i % 2 ^ s.globalDepth < s.dir.length := by
      rw [hlen]; exact Nat.mod_lt _ (two_pow_pos' _)
    have hj' : j % 2 ^ s.globalDepth < s.dir.length := by
      rw [hlen]; exact Nat.mod_lt _ (two_pow_pos' _)
    have hsh := hs.share _ hi' _ hj' heq'
    have hd := hs.depth_le _ hi'
    calc i % 2 ^ (bucketAt s (i % 2 ^ s.globalDepth)).depth
        = i % 2 ^ s.globalDepth % 2 ^ (bucketAt s (i % 2 ^ s.globalDepth)).depth :=
          (mod_pow_of_le hd).symm
      _ = j % 2 ^ s.globalDepth % 2 ^ (bucketAt s (i % 2 ^ s.globalDepth)).depth := by rw [hsh]
      _ = j % 2 ^ (bucketAt s (i % 2 ^ s.globalDepth)).depth := mod_pow_of_le hd

theorem getD_mem {l : List Nat} {n : Nat} (h : n < l.length) : l.getD n 0 ∈ l := by
  rw [List.getD_eq_getElem _ _ h]
  exact List.getElem_mem _

theorem getD_append_two0 {α : Type} (l : List α) (p0 p1 : α) (d : α) :
    (l ++ [p0, p1]).getD l.length d = p0 := by
  rw [List.getD_append_right _ _ _ _ (le_refl _)]
  simp

theorem getD_append_two1 {α : Type} (l : List α) (p0 p1 : α) (d : α) :
    (l ++ [p0, p1]).getD (l.length + 1) d = p1 := by
  rw [List.getD_append_right _ _ _ _ (by omega)]
  simp

theorem rewireAux_mem {f : Nat → Nat → Nat} {l : List Nat} {x : Nat} :
    ∀ {i}, x ∈ rewireAux f i l → ∃ m, m < l.length ∧ x = f (i + m) (l.getD m 0) := by
  induction l with
  | nil => intro i h; simp [rewireAux] at h
  | cons y ys ih =>
      intro i h
      rcases List.mem_cons.1 h with h | h
      · exact ⟨0, by simp, by simpa using h⟩
      · obtain ⟨m, hm, hx⟩ := ih h
        refine ⟨m + 1, by simp; omega, ?_⟩
        rw [hx, List.getD_cons_succ]
        congr 1
        omega

theorem testBit_mod_pow {x g d : Nat} (hd : d < g) :
    Nat.testBit (x % 2 ^ g) d = Nat.testBit x d := by
  have hsplit : 2 ^ g = 2 ^ d * 2 ^ (g - d) := by rw [← pow_add]; congr 1; omega
  have h1 : x % 2 ^ g / 2 ^ d = x / 2 ^ d % 2 ^ (g - d) := by
    rw [hsplit, Nat.mod_mul_right_div_self]
  have h2 : x % 2 ^ g / 2 ^ d % 2 = x / 2 ^ d % 2 := by
    rw [h1, Nat.mod_mod_of_dvd _ (dvd_pow_self 2 (by omega : g - d ≠ 0))]
  rw [Nat.testBit_to_div_mod, Nat.testBit_to_div_mod, h2]

/-- The rewiring-and-allocation step of the split preserves the
invariant, and afterwards the slot addressed by `k` holds the high or
low replacement bucket according to bit `d` of the key's hash. -/
theorem Inv_rewire (s1 : EHT K V) (k : K) (d : Nat) (p0 p1 : Bucket K V)
    (hs1 : Inv hash s1) (hd : d < s1.globalDepth)
    (hdep0 : p0.depth = d + 1) (hdep1 : p1.depth = d + 1)
    (hel0 : ∀ kv ∈ p0.list, hash kv.1 % 2 ^ d = hash k % 2 ^ d ∧ Nat.testBit (hash kv.1) d = false)
    (hel1 : ∀ kv ∈ p1.list, hash kv.1 % 2 ^ d = hash k % 2 ^ d ∧ Nat.testBit (hash kv.1) d = true) :
    Inv hash { s1 with dir := rewireAux (fun i bi => if i % 2 ^ d = hash k % 2 ^ d then (if Nat.testBit i d then s1.store.length + 1 else s1.store.length) else bi) 0 s1.dir, store := s1.store ++ [p0, p1] }
    ∧ bucketAt { s1 with dir := rewireAux (fun i bi => if i % 2 ^ d = hash k % 2 ^ d then (if Nat.testBit i d then s1.store.length + 1 else s1.store.length) else bi) 0 s1.dir, store := s1.store ++ [p0, p1] } (hash k % 2 ^ s1.globalDepth)
      = (if Nat.testBit (hash k) d then p1 else p0) := by
  set f : Nat → Nat → Nat := fun i bi =>
    if i % 2 ^ d = hash k % 2 ^ d then
      (if Nat.testBit i d then s1.store.length + 1 else s1.store.length)
    else bi with hf
  have hDlen : (rewireAux f 0 s1.dir).length = s1.dir.length := rewireAux_length f s1.dir 0
  have hgetD : ∀ m, m < s1.dir.length →
      (rewireAux f 0 s1.dir).getD m 0 = f m (s1.dir.getD m 0) := by
    intro m hm
    have := rewireAux_getD f s1.dir 0 m 0 hm
    simpa using this
  have hb2 : ∀ i, i < s1.dir.length →
      bucketAt { s1 with dir := rewireAux f 0 s1.dir, store := s1.store ++ [p0, p1] } i
        = if i % 2 ^ d = hash k % 2 ^ d then (if Nat.testBit i d then p1 else p0)
          else bucketAt s1 i := by
    intro i hi
    show (s1.store ++ [p0, p1]).getD ((rewireAux f 0 s1.dir).getD i 0) ⟨[], 0, 0⟩ = _
    rw [hgetD i hi]
    simp only [hf]
    by_cases hc : i % 2 ^ d = hash k % 2 ^ d
    · rw [if_pos hc, if_pos hc]
      by_cases hbit : Nat.testBit i d
      · rw [if_pos hbit, if_pos hbit, getD_append_two1]
      · rw [if_neg hbit, if_neg hbit, getD_append_two0]
    · rw [if_neg hc, if_neg hc]
      exact List.getD_append _ _ _ _ (hs1.valid _ (getD_mem hi))
  refine ⟨⟨?_, ?_, hs1.bsize, ?_, ?_, ?_, ?_⟩, ?_⟩
  · show s1.numBuckets = (rewireAux f 0 s1.dir).length
    rw [hDlen]; exact hs1.nb_dir
  · show (rewireAux f 0 s1.dir).length = 2 ^ s1.globalDepth
    rw [hDlen]; exact hs1.dir_len
  · intro bi hbi
    show bi < (s1.store ++ [p0, p1]).length
    obtain ⟨m, hm, hx⟩ := rewireAux_mem hbi
    simp only [Nat.zero_add] at hx
    rw [hx]
    simp only [hf]
    simp only [List.length_append, List.length_cons, List.length_nil]
    by_cases hc : m % 2 ^ d = hash k % 2 ^ d
    · rw [if_pos hc]
      by_cases hbit : Nat.testBit m d
      · rw [if_pos hbit]; omega
      · rw [if_neg hbit]; omega
    · rw [if_neg hc]
      have := hs1.valid _ (getD_mem hm)
      omega
  · intro i hi
    rw [hDlen] at hi
    rw [hb2 i hi]
    by_cases hc : i % 2 ^ d = hash k % 2 ^ d
    · rw [if_pos hc]
      by_cases hbit : Nat.testBit i d
      · rw [if_pos hbit, hdep1]
        show d + 1 ≤ s1.globalDepth
        omega
      · rw [if_neg hbit, hdep0]
        show d + 1 ≤ s1.globalDepth
        omega
    · rw [if_neg hc]
      exact hs1.depth_le i hi
  · intro i hi kv hkv
    rw [hDlen] at hi
    rw [hb2 i hi] at hkv ⊢
    by_cases hc : i % 2 ^ d = hash k % 2 ^ d
    · rw [if_pos hc] at hkv ⊢
      by_cases hbit : Nat.testBit i d
      · rw [if_pos hbit] at hkv ⊢
        rw [hdep1]
        obtain ⟨hm, hb⟩ := hel1 kv hkv
        exact cong_succ_of_bit (by rw [hm, hc]) (by rw [hb, hbit])
      · rw [if_neg hbit] at hkv ⊢
        rw [hdep0]
        obtain ⟨hm, hb⟩ := hel0 kv hkv
        refine cong_succ_of_bit (by rw [hm, hc]) ?_
        rw [hb]
        exact (Bool.not_eq_true _ ▸ hbit : Nat.testBit i d = false).symm
    · rw [if_neg hc] at hkv ⊢
      exact hs1.elem_cong i hi kv hkv
  · intro i hi j hj heq
    rw [hDlen] at hi hj
    have heq' : f i (s1.dir.getD i 0) = f j (s1.dir.getD j 0) := by
      rw [← hgetD i hi, ← hgetD j hj]; exact heq
    simp only [hf] at heq'
    rw [hb2 i hi]
    by_cases hci : i % 2 ^ d = hash k % 2 ^ d
    · by_cases hcj : j % 2 ^ d = hash k % 2 ^ d
      · rw [if_pos hci]
        simp only [if_pos hci, if_pos hcj] at heq'
        by_cases hbi : Nat.testBit i d
        · by_cases hbj : Nat.testBit j d
          · rw [if_pos hbi, hdep1]
            exact cong_succ_of_bit (by rw [hci, hcj]) (by rw [hbi, hbj])
          · rw [if_pos hbi, if_neg hbj] at heq'
            omega
        · by_cases hbj : Nat.testBit j d
          · rw [if_neg hbi, if_pos hbj] at heq'
            omega
          · rw [if_neg hbi, hdep0]
            refine cong_succ_of_bit (by rw [hci, hcj]) ?_
            rw [(Bool.not_eq_true _ ▸ hbi : Nat.testBit i d = false),
              (Bool.not_eq_true _ ▸ hbj : Nat.testBit j d = false)]
      · simp only [if_pos hci, if_neg hcj] at heq'
        have hvj := hs1.valid _ (getD_mem hj)
        by_cases hbi : Nat.testBit i d
        · rw [if_pos hbi] at heq'; omega
        · rw [if_neg hbi] at heq'; omega
    · by_cases hcj : j % 2 ^ d = hash k % 2 ^ d
      · simp only [if_neg hci, if_pos hcj] at heq'
        have hvi := hs1.valid _ (getD_mem hi)
        by_cases hbj : Nat.testBit j d
        · rw [if_pos hbj] at heq'; omega
        · rw [if_neg hbj] at heq'; omega
      · rw [if_neg hci]
        simp only [if_neg hci, if_neg hcj] at heq'
        exact hs1.share i hi j hj heq'
  · have hgd : 0 < s1.globalDepth := by omega
    have ht : hash k % 2 ^ s1.globalDepth < s1.dir.length := by
      rw [hs1.dir_len]; exact Nat.mod_lt _ (two_pow_pos' _)
    rw [hb2 _ ht]
    have hmod : hash k % 2 ^ s1.globalDepth % 2 ^ d = hash k % 2 ^ d :=
      mod_pow_of_le (le_of_lt hd)
    rw [if_pos hmod, testBit_mod_pow hd]

theorem doubleStep_globalDepth (s : EHT K V) : (doubleStep s).globalDepth = s.globalDepth + 1 :=
  rfl

theorem doubleStep_bucketSize (s : EHT K V) : (doubleStep s).bucketSize = s.bucketSize := rfl

theorem rewireStep_bucketSize (s1 : EHT K V) (k : K) (d : Nat) (p0 p1 : Bucket K V) :
    (rewireStep hash s1 k d p0 p1).bucketSize = s1.bucketSize := rfl

theorem Inv_doubleStep (s : EHT K V) (hs : Inv hash s) : Inv hash (doubleStep s) :=
  Inv_double hash s hs

theorem Inv_rewireStep (s1 : EHT K V) (k : K) (d : Nat) (p0 p1 : Bucket K V)
    (hs1 : Inv hash s1) (hd : d < s1.globalDepth)
    (hdep0 : p0.depth = d + 1) (hdep1 : p1.depth = d + 1)
    (hel0 : ∀ kv ∈ p0.list, hash kv.1 % 2 ^ d = hash k % 2 ^ d ∧ Nat.testBit (hash kv.1) d = false)
    (hel1 : ∀ kv ∈ p1.list, hash kv.1 % 2 ^ d = hash k % 2 ^ d ∧ Nat.testBit (hash kv.1) d = true) :
    Inv hash (rewireStep hash s1 k d p0 p1)
    ∧ bucketAt (rewireStep hash s1 k d p0 p1) (indexOf hash (rewireStep hash s1 k d p0 p1) k)
      = (if Nat.testBit (hash k) d then p1 else p0) :=
  Inv_rewire hash s1 k d p0 p1 hs1 hd hdep0 hdep1 hel0 hel1

/-- One split iteration: the invariant is preserved, the bucket capacity
setting is unchanged, and the bucket addressed by `k` afterwards is a
fresh one whose local depth grew by one and whose capacity is the
table's bucket size. -/
theorem splitStep_spec (s : EHT K V) (k : K) (hs : Inv hash s) :
    Inv hash (splitStep hash s k) ∧
    (splitStep hash s k).bucketSize = s.bucketSize ∧
    (bucketAt (splitStep hash s k) (indexOf hash (splitStep hash s k) k)).depth
      = (bucketAt s (indexOf hash s k)).depth + 1 ∧
    (bucketAt (splitStep hash s k) (indexOf hash (splitStep hash s k) k)).cap = s.bucketSize := by
  have hi0 := indexOf_lt_dir hash s k hs
  set b := bucketAt s (indexOf hash s k) with hb
  set d := b.depth with hd
  set pq := redistribute hash d b.list (⟨[], s.bucketSize, d + 1⟩, ⟨[], s.bucketSize, d + 1⟩)
    with hpq
  have hmodkey : ∀ (kv : K × V) (w : V), (kv.1, w) ∈ b.list →
      hash kv.1 % 2 ^ d = hash k % 2 ^ d := by
    intro kv w hw
    have h1 := hs.elem_cong _ hi0 (kv.1, w) hw
    rw [← hb, ← hd] at h1
    rw [h1]
    have h2 := indexOf_cong hash s k hs
    rw [← hb, ← hd] at h2
    exact h2.symm
  have hel0 : ∀ kv ∈ pq.1.list,
      hash kv.1 % 2 ^ d = hash k % 2 ^ d ∧ Nat.testBit (hash kv.1) d = false := by
    intro kv hkv
    rw [hpq] at hkv
    rcases (redistribute_key_mem d b.list _ kv).1 hkv with ⟨w, hw⟩ | ⟨⟨w, hw⟩, hbit⟩
    · simp at hw
    · exact ⟨hmodkey kv w hw, hbit⟩
  have hel1 : ∀ kv ∈ pq.2.list,
      hash kv.1 % 2 ^ d = hash k % 2 ^ d ∧ Nat.testBit (hash kv.1) d = true := by
    intro kv hkv
    rw [hpq] at hkv
    rcases (redistribute_key_mem d b.list _ kv).2 hkv with ⟨w, hw⟩ | ⟨⟨w, hw⟩, hbit⟩
    · simp at hw
    · exact ⟨hmodkey kv w hw, hbit⟩
  have hdep0 : pq.1.depth = d + 1 := by
    rw [hpq]; exact (redistribute_caps d b.list _).1
  have hcap0 : pq.1.cap = s.bucketSize := by
    rw [hpq]; exact (redistribute_caps d b.list _).2.1
  have hdep1 : pq.2.depth = d + 1 := by
    rw [hpq]; exact (redistribute_caps d b.list _).2.2.1
  have hcap1 : pq.2.cap = s.bucketSize := by
    rw [hpq]; exact (redistribute_caps d b.list _).2.2.2
  have hstep : splitStep hash s k
      = rewireStep hash (if d = s.globalDepth then doubleStep s else s) k d pq.1 pq.2 := by
    simp only [splitStep]
  by_cases hdg : d = s.globalDepth
  · rw [hstep, if_pos hdg]
    have hInv1 := Inv_doubleStep hash s hs
    have hd1 : d < (doubleStep s).globalDepth := by rw [doubleStep_globalDepth]; omega
    have happ := Inv_rewireStep hash (doubleStep s) k d pq.1 pq.2 hInv1 hd1 hdep0 hdep1 hel0 hel1
    refine ⟨happ.1, ?_, ?_, ?_⟩
    · rw [rewireStep_bucketSize, doubleStep_bucketSize]
    · rw [happ.2]
      by_cases hbk : Nat.testBit (hash k) d
      · rw [if_pos hbk, hdep1]
      · rw [if_neg hbk, hdep0]
    · rw [happ.2]
      by_cases hbk : Nat.testBit (hash k) d
      · rw [if_pos hbk, hcap1]
      · rw [if_neg hbk, hcap0]
  · have hdlt : d < s.globalDepth := by
      have hle := hs.depth_le _ hi0
      rw [← hb, ← hd] at hle
      omega
    rw [hstep, if_neg hdg]
    have happ := Inv_rewireStep hash s k d pq.1 pq.2 hs hdlt hdep0 hdep1 hel0 hel1
    refine ⟨happ.1, ?_, ?_, ?_⟩
    · rw [rewireStep_bucketSize]
    · rw [happ.2]
      by_cases hbk : Nat.testBit (hash k) d
      · rw [if_pos hbk, hdep1]
      · rw [if_neg hbk, hdep0]
    · rw [happ.2]
      by_cases hbk : Nat.testBit (hash k) d
      · rw [if_pos hbk, hcap1]
      · rw [if_neg hbk, hcap0]

/-- `Insert` preserves the invariant, however many split iterations it
takes. -/
theorem insertLoop_Inv (k : K) (v : V) :
    ∀ (f : Nat) (s s2 : EHT K V), Inv hash s → insertLoop hash f s k v = some s2 →
      Inv hash s2 := by
  intro f
  induction f with
  | zero => intro s s2 _ h; simp [insertLoop] at h
  | succ f ih =>
      intro s s2 hs h
      simp only [insertLoop] at h
      by_cases hfull : (s.store.getD (s.dir.getD (indexOf hash s k) 0) ⟨[], 0, 0⟩).full
      · rw [if_pos hfull] at h
        by_cases hfound :
            (bucketFind (s.store.getD (s.dir.getD (indexOf hash s k) 0) ⟨[], 0, 0⟩).list k).isSome
        · rw [if_pos hfound] at h
          rw [← Option.some.inj h]
          exact Inv_insertTerminal hash s k v hs
        · rw [if_neg hfound] at h
          exact ih (splitStep hash s k) s2 (splitStep_spec hash s k hs).1 h
      · rw [if_neg hfull] at h
        rw [← Option.some.inj h]
        exact Inv_insertTerminal hash s k v hs

/-- Every reachable table satisfies the structural invariant. -/
theorem Reachable_Inv {s : EHT K V} (hr : Reachable hash s) : Inv hash s := by
  induction hr with
  | base B hB => exact Inv_new hash B hB
  | ins f k v hs h ih => exact insertLoop_Inv hash k v f _ _ ih h
  | rem k hs ih => exact Inv_removeK hash _ k ih

/-- With an injective hash bounded by `2 ^ w`, a full bucket of positive
capacity at local depth at least `w` can only contain the probed key
itself: all its elements share the key's hash residue, hence its hash,
hence are the key. -/
theorem deep_full_found (w : Nat) (hinj : Function.Injective hash)
    (hbound : ∀ k1 : K, hash k1 < 2 ^ w)
    (s : EHT K V) (k : K) (hs : Inv hash s)
    (hw : w ≤ (bucketAt s (indexOf hash s k)).depth)
    (hcap : 1 ≤ (bucketAt s (indexOf hash s k)).cap)
    (hfull : (bucketAt s (indexOf hash s k)).full) :
    (bucketFind (bucketAt s (indexOf hash s k)).list k).isSome := by
  set i0 := indexOf hash s k with hi0def
  set b := bucketAt s i0 with hbdef
  have hlen : 1 ≤ b.list.length := le_trans hcap hfull
  obtain ⟨kv, hkv⟩ : ∃ kv, kv ∈ b.list := by
    cases hl : b.list with
    | nil => rw [hl] at hlen; simp at hlen
    | cons a rest => exact ⟨a, by simp⟩
  have hc := hs.elem_cong i0 (indexOf_lt_dir hash s k hs) kv hkv
  rw [← hbdef] at hc
  have hk := indexOf_cong hash s k hs
  rw [← hi0def, ← hbdef] at hk
  have hmod : hash kv.1 % 2 ^ w = hash k % 2 ^ w := by
    have h1 : hash kv.1 % 2 ^ b.depth = hash k % 2 ^ b.depth := by rw [hc, ← hk]
    calc hash kv.1 % 2 ^ w = hash kv.1 % 2 ^ b.depth % 2 ^ w := (mod_pow_of_le hw).symm
      _ = hash k % 2 ^ b.depth % 2 ^ w := by rw [h1]
      _ = hash k % 2 ^ w := mod_pow_of_le hw
  have heq : hash kv.1 = hash k := by
    rw [Nat.mod_eq_of_lt (hbound kv.1), Nat.mod_eq_of_lt (hbound k)] at hmod
    exact hmod
  have hkey : kv.1 = k := hinj heq
  have hmem : (k, kv.2) ∈ b.list := by rw [← hkey]; simpa using hkv
  exact bucketFind_isSome_of_mem hmem

/-- The fuel induction behind the termination bound: each split raises
the local depth of the key's bucket, and once that depth reaches the
hash width the bucket cannot be full of other keys any more. -/
theorem insertLoop_total (w : Nat) (hinj : Function.Injective hash)
    (hbound : ∀ k1 : K, hash k1 < 2 ^ w) (k : K) (v : V) :
    ∀ (f : Nat) (s : EHT K V), Inv hash s →
      ((w ≤ (bucketAt s (indexOf hash s k)).depth ∧ 1 ≤ (bucketAt s (indexOf hash s k)).cap
          ∧ 1 ≤ f)
        ∨ (w ≤ (bucketAt s (indexOf hash s k)).depth ∧ 2 ≤ f)
        ∨ ((bucketAt s (indexOf hash s k)).depth < w
            ∧ w - (bucketAt s (indexOf hash s k)).depth + 1 ≤ f)) →
      (insertLoop hash f s k v).isSome := by
  intro f
  induction f with
  | zero =>
      intro s hs hcase
      rcases hcase with ⟨_, _, h3⟩ | ⟨_, h2⟩ | ⟨_, h2⟩ <;> omega
  | succ f ih =>
      intro s hs hcase
      simp only [insertLoop]
      by_cases hfull : (s.store.getD (s.dir.getD (indexOf hash s k) 0) ⟨[], 0, 0⟩).full
      · rw [if_pos hfull]
        by_cases hfound :
            (bucketFind (s.store.getD (s.dir.getD (indexOf hash s k) 0) ⟨[], 0, 0⟩).list k).isSome
        · rw [if_pos hfound]
          simp
        · rw [if_neg hfound]
          obtain ⟨hInv2, _, hdepth2, hcap2⟩ := splitStep_spec hash s k hs
          apply ih (splitStep hash s k) hInv2
          rcases hcase with ⟨h1, h2, _⟩ | ⟨h1, h2⟩ | ⟨h1, h2⟩
          · exact absurd (deep_full_found hash w hinj hbound s k hs h1 h2 hfull) hfound
          · by_cases hcap : 1 ≤ (bucketAt s (indexOf hash s k)).cap
            · exact absurd (deep_full_found hash w hinj hbound s k hs h1 hcap hfull) hfound
            · left
              refine ⟨by rw [hdepth2]; omega, by rw [hcap2]; exact hs.bsize, by omega⟩
          · by_cases hlt : (bucketAt s (indexOf hash s k)).depth + 1 < w
            · right; right
              exact ⟨by rw [hdepth2]; omega, by rw [hdepth2]; omega⟩
            · left
              refine ⟨by rw [hdepth2]; omega, by rw [hcap2]; exact hs.bsize, by omega⟩
      · rw [if_neg hfull]
        simp

end EHTInvariant

/-- Claim C9: for every reachable extendible-hash-table state (its
bucket capacity is positive by construction) and every key, `insert`
terminates: with the key's hash injective and confined to `w ≥ 1` bits
(as `std::hash` on the instantiated integer keys is), the source's
bucket-split loop exits within at most `w` split iterations — fuel
`w + 1` always suffices. -/
theorem eht_insert_terminates {K V : Type} [DecidableEq K] (hash : K → Nat) (w : Nat)
    (s : EHT K V) (k : K) (v : V) (hr : Reachable hash s) (hw : 1 ≤ w)
    (hinj : Function.Injective hash) (hbound : ∀ k1 : K, hash k1 < 2 ^ w) :
    (insertLoop hash (w + 1) s k v).isSome := by
  have hs := Reachable_Inv hash hr
  apply insertLoop_total hash w hinj hbound k v (w + 1) s hs
  by_cases hlt : (bucketAt s (indexOf hash s k)).depth < w
  · right; right; exact ⟨hlt, by omega⟩
  · right; left; exact ⟨by omega, by omega⟩

theorem eht_insert_terminates_witness :
    (insertLoop finHash 5 (EHT.new (Fin 16) Nat 2) 3 33).isSome :=
  eht_insert_terminates finHash 4 (EHT.new (Fin 16) Nat 2) 3 33
    (Reachable.base 2 (by decide)) (by decide) (by decide) (by decide)

/-- Claim C10: in every reachable table state, `num_buckets_` equals
`2 ^ global_depth_` and equals the directory length, so `GetNumBuckets`
reports the number of directory slots (the witness exhibits a reachable
state whose directory holds duplicate bucket references, so the number
of distinct buckets is smaller). -/
theorem eht_numBuckets_invariant {K V : Type} [DecidableEq K] (hash : K → Nat)
    (s : EHT K V) (hr : Reachable hash s) :
    s.getNumBuckets = 2 ^ s.globalDepth ∧ s.getNumBuckets = s.dir.length := by
  have hs := Reachable_Inv hash hr
  constructor
  · show s.numBuckets = 2 ^ s.globalDepth
    rw [hs.nb_dir, hs.dir_len]
  · exact hs.nb_dir

theorem ehtDup_reachable : Reachable natHash ehtDupState := by
  have h0 : Reachable natHash (EHT.new Nat Nat 2) := Reachable.base 2 (by omega)
  have h1 : insertLoop natHash 5 (EHT.new Nat Nat 2) 0 10 = some ehtDupS1 := by decide
  have h2 : insertLoop natHash 5 ehtDupS1 2 12 = some ehtDupS2 := by decide
  have h3 : insertLoop natHash 5 ehtDupS2 4 14 = some ehtDupState := by decide
  exact Reachable.ins 5 4 14 (Reachable.ins 5 2 12 (Reachable.ins 5 0 10 h0 h1) h2) h3

theorem eht_numBuckets_invariant_witness :
    ehtDupState.getNumBuckets = 2 ^ ehtDupState.globalDepth
    ∧ ehtDupState.getNumBuckets = ehtDupState.dir.length
    ∧ ehtDupState.getNumBuckets = 4
    ∧ ¬ ehtDupState.dir.Nodup :=
  ⟨(eht_numBuckets_invariant natHash ehtDupState ehtDup_reachable).1,
   (eht_numBuckets_invariant natHash ehtDupState ehtDup_reachable).2,
   by decide, by decide⟩

end EHTProofs

end Spec2Proof
